import Mathlib

/-!
Verification development for the test-explorer extension runtime core.

The TypeScript sources are shallowly embedded: JavaScript `Map`s become
association lists in insertion order, JavaScript numbers become `ℚ`
(`none` standing for NaN where parsing can fail), strings become `String`
or `List Char`, and the VS Code `TestItem` tree becomes an inductive tree.
Each definition carries a pointer to the source function it embeds.
-/

set_option maxRecDepth 4000

namespace TestExplorer

/-- JS `Map<string, α>` in insertion order (first component is the key). -/
abbrev SMap (α : Type) : Type := List (String × α)

/-- `Map.get`: value of the first (unique) entry with the given key. -/
def mapGet {α : Type} : SMap α → String → Option α
  | [], _ => none
  | (k', v) :: rest, k => if k' = k then some v else mapGet rest k

/-- `Map.set`: replace in place when the key exists, else append at the end. -/
def mapSet {α : Type} : SMap α → String → α → SMap α
  | [], k, v => [(k, v)]
  | (k', v') :: rest, k, v =>
    if k' = k then (k, v) :: rest else (k', v') :: mapSet rest k v

/-- Metadata record attached to a test item (`extension/src/testing/model.ts`,
as consumed by `testItemStore.ts` and `resultMapper.ts`). `kind` is kept as a
string because the source compares it against string literals. -/
structure TestMetadata where
  fullyQualifiedName : String
  displayName : Option String := none
  kind : String
  isTheory : Option Bool := none
deriving DecidableEq, Repr

/-- A VS Code `TestItem`: stable id, optional metadata, children. -/
inductive TestItem : Type where
  | mk : String → Option TestMetadata → List TestItem → TestItem

/-- The item's stable id. -/
def TestItem.id : TestItem → String
  | .mk i _ _ => i

/-- `getTestMetadata` (`testItemStore.ts`): the metadata record, when present. -/
def TestItem.metadata : TestItem → Option TestMetadata
  | .mk _ m _ => m

/-- The item's children (`item.children`). -/
def TestItem.children : TestItem → List TestItem
  | .mk _ _ c => c

mutual

/-- Number of nodes of a tree, used as a termination measure. -/
def TestItem.size : TestItem → Nat
  | .mk _ _ children => 1 + TestItem.sizeList children

/-- Total number of nodes of a forest. -/
def TestItem.sizeList : List TestItem → Nat
  | [] => 0
  | t :: ts => TestItem.size t + TestItem.sizeList ts

end

/-- `isLeafRunnableItem` (`testItemStore.ts:97-116`): theory cases and
childless non-theory methods receive run state updates. -/
def isLeafRunnableItem (item : TestItem) : Bool :=
  match item.metadata with
  | none => false
  | some m =>
    if m.kind = "case" then true
    else if m.kind = "method" then
      if item.children.length > 0 then false
      else (m.isTheory ≠ some true) || item.children.length = 0
    else false

/-- The guard of `collectRunnableItems` (`resultMapper.ts:163-168`):
`(kind method or case) && not (method with children) && isLeafRunnableItem`.
Optional chaining on absent metadata makes the whole condition false. -/
def collectCondition (item : TestItem) : Bool :=
  match item.metadata with
  | none => false
  | some m =>
    (m.kind = "method" || m.kind = "case") &&
      !(m.kind = "method" && item.children.length > 0) &&
      isLeafRunnableItem item

/-- The stack loop of `collectRunnableItems` (`resultMapper.ts:155-176`).
The JS stack pops from the end and pushes children in order, so the head of
the Lean list is the stack top and pushed children appear reversed. -/
def collectLoop : List TestItem → SMap TestItem → SMap TestItem
  | [], acc => acc
  | current :: stackRest, acc =>
    let acc' := if collectCondition current then mapSet acc current.id current else acc
    collectLoop (current.children.reverse ++ stackRest) acc'
termination_by stack _ => TestItem.sizeList stack
decreasing_by
  simp only [TestItem.sizeList]
  have happ : ∀ (l₁ l₂ : List TestItem),
      TestItem.sizeList (l₁ ++ l₂) = TestItem.sizeList l₁ + TestItem.sizeList l₂ := by
    intro l₁ l₂
    induction l₁ with
    | nil => simp [TestItem.sizeList]
    | cons t ts ih => simp [TestItem.sizeList, ih]; omega
  have hrev : ∀ (l : List TestItem),
      TestItem.sizeList l.reverse = TestItem.sizeList l := by
    intro l
    induction l with
    | nil => rfl
    | cons t ts ih => simp [TestItem.sizeList, happ, ih]; omega
  have hsize : TestItem.size current = 1 + TestItem.sizeList current.children := by
    cases current with
    | mk i m c => rfl
  rw [happ, hrev, hsize]
  omega

/-- `collectRunnableItems(root, collected)` (`resultMapper.ts:155-176`). -/
def collectRunnableItems (root : TestItem) (collected : SMap TestItem) : SMap TestItem :=
  collectLoop [root] collected

/-- The collection loop of `markMissingExpectedResultsAsSkipped`
(`resultMapper.ts:122-125`): collect runnable leaves of every expected root. -/
def collectAllRunnable (roots : List TestItem) : SMap TestItem :=
  roots.foldl (fun acc root => collectRunnableItems root acc) []

/-- `buildCaseLookupKey` (`resultMapper.ts:291-293`). -/
def buildCaseLookupKey (fullyQualifiedName displayName : String) : String :=
  fullyQualifiedName ++ "||" ++ displayName

/-- Whether an optional string is truthy in JS (present and non-empty). -/
def truthyStr : Option String → Bool
  | none => false
  | some s => s ≠ ""

mutual

/-- `addTestItemToMaps` (`resultMapper.ts:270-289`): index the item by
case key or by qualified name, then recurse into the children. The first
map is the method map, the second the case map. -/
def addTestItemToMaps (item : TestItem) (maps : SMap TestItem × SMap TestItem) :
    SMap TestItem × SMap TestItem :=
  match item with
  | .mk _ md children =>
    let maps1 :=
      match md with
      | some m =>
        if m.fullyQualifiedName ≠ "" then
          if m.kind = "case" && truthyStr m.displayName then
            (maps.1,
              mapSet maps.2 (buildCaseLookupKey m.fullyQualifiedName (m.displayName.getD "")) item)
          else
            (mapSet maps.1 m.fullyQualifiedName item, maps.2)
        else maps
      | none => maps
    addTestItemsToMaps children maps1

/-- `item.children.forEach(child => addTestItemToMaps(child, ...))`. -/
def addTestItemsToMaps (items : List TestItem) (maps : SMap TestItem × SMap TestItem) :
    SMap TestItem × SMap TestItem :=
  match items with
  | [] => maps
  | t :: ts => addTestItemsToMaps ts (addTestItemToMaps t maps)

end

/-- `buildTestItemMaps` (`resultMapper.ts:253-261`): fold every controller
root through `addTestItemToMaps`. -/
def buildTestItemMaps (controller : List TestItem) : SMap TestItem × SMap TestItem :=
  addTestItemsToMaps controller ([], [])

/-- The ASCII part of the JS regex class `\s` (space, tab, line feed,
carriage return, vertical tab, form feed). The TRX display names in play
contain only ASCII whitespace, so the exotic Unicode members are omitted. -/
def isWsChar (c : Char) : Bool :=
  c = ' ' || c = '\t' || c = '\n' || c = '\r' || c = Char.ofNat 11 || c = Char.ofNat 12

/-- The character class `[·.]` of the truncation-marker regex
(`resultMapper.ts:310`): middle dot or full stop. -/
def isTruncDotChar (c : Char) : Bool :=
  c = Char.ofNat 0xB7 || c = '.'

/-- Whether `\s*[·.]{2,}\s*\}` matches right after a comma. The three
sub-alphabets (whitespace, dots, closing brace) are disjoint, so the greedy
regex match is the deterministic scan implemented here. -/
def matchTruncAfterComma (cs : List Char) : Bool :=
  let afterWs := cs.dropWhile isWsChar
  let dots := afterWs.takeWhile isTruncDotChar
  if dots.length < 2 then false
  else
    match (afterWs.drop dots.length).dropWhile isWsChar with
    | '}' :: _ => true
    | _ => false

/-- The test `/,\s*[·\.]{2,}\s*\}/.test(trxDisplayName)`
(`resultMapper.ts:310`): an unanchored search for the marker. -/
def hasTruncMarker : List Char → Bool
  | [] => false
  | c :: rest => (c = ',' && matchTruncAfterComma rest) || hasTruncMarker rest

/-- `trxDisplayName.replace(/,\s*[·\.]{2,}\s*\}.*$/, '')`
(`resultMapper.ts:315`): cut at the leftmost comma that starts a marker
(the `.*$` swallows the rest of the string). -/
def stripTruncMarker : List Char → List Char
  | [] => []
  | c :: rest =>
    if c = ',' && matchTruncAfterComma rest then []
    else c :: stripTruncMarker rest

/-- JS `String.prototype.trim` on the modeled whitespace class. -/
def jsTrim (cs : List Char) : List Char :=
  ((cs.dropWhile isWsChar).reverse.dropWhile isWsChar).reverse

/-- The prefix scan `for (const [key, item] of caseMap) if (key.startsWith(keyPfx))`
(`resultMapper.ts:318-322`): first entry, in insertion order, whose key starts
with the given character sequence. -/
def lookupByKeyStart (caseMap : SMap TestItem) (pfx : List Char) : Option TestItem :=
  match caseMap with
  | [] => none
  | (k, item) :: rest =>
    if pfx <+: k.data then some item else lookupByKeyStart rest pfx

/-- `findCaseItemByTruncatedDisplayName` (`resultMapper.ts:303-325`). -/
def findCaseItemByTruncatedDisplayName (fqn trxDisplayName : String)
    (caseMap : SMap TestItem) : Option TestItem :=
  if trxDisplayName = "" then none
  else if !hasTruncMarker trxDisplayName.data then none
  else
    let stripped := jsTrim (stripTruncMarker trxDisplayName.data)
    let keyPfx := fqn.data ++ ('|' :: '|' :: stripped)
    lookupByKeyStart caseMap keyPfx

/-- The lookup chain of `applyTestResults` (`resultMapper.ts:46-50`):
exact case key, then truncated-display-name fallback, then method map. -/
def resolveTestItem (caseMap methodMap : SMap TestItem)
    (fullyQualifiedName displayName : String) : Option TestItem :=
  match mapGet caseMap (buildCaseLookupKey fullyQualifiedName displayName) with
  | some item => some item
  | none =>
    match findCaseItemByTruncatedDisplayName fullyQualifiedName displayName caseMap with
    | some item => some item
    | none => mapGet methodMap fullyQualifiedName

/-- TRX outcome after `normalizeOutcome` (`trxParser.ts`). -/
inductive Outcome : Type where
  | Passed
  | Failed
  | NotExecuted
  | Skipped
deriving DecidableEq, Repr

/-- `TrxTestResult` (`trxParser.ts`). The duration is a JS number in
milliseconds, modeled as `ℚ`. -/
structure TrxTestResult where
  testName : String
  displayName : String
  fullyQualifiedName : String
  outcome : Outcome
  duration : ℚ := 0
deriving DecidableEq, Repr

/-- The per-item run state recorded in `itemStates`
(`resultMapper.ts:34`): all four values are terminal. -/
inductive RunItemState : Type where
  | passed
  | failed
  | errored
  | skipped
deriving DecidableEq, Repr

/-- `TestRunSummary` (`resultMapper.ts:6-12`). -/
structure TestRunSummary where
  passed : Nat
  failed : Nat
  skipped : Nat
  total : Nat
  executionTimeMs : ℚ
deriving DecidableEq, Repr

/-- The state threaded through `applyTestResults`: the `itemStates` map and
the summary under construction. -/
structure ApplyResult where
  itemStates : SMap RunItemState
  summary : TestRunSummary
deriving Repr

/-- One iteration of the result loop of `applyTestResults`
(`resultMapper.ts:45-103`): resolve the outcome's tree item; unmatched
outcomes are logged and dropped; a match sets the item's terminal state,
bumps the per-outcome counter, sums positive durations and increments
`total`. -/
def applyOneResult (caseMap methodMap : SMap TestItem) (acc : ApplyResult)
    (r : TrxTestResult) : ApplyResult :=
  match resolveTestItem caseMap methodMap r.fullyQualifiedName r.displayName with
  | none => acc
  | some item =>
    let s0 := acc.summary
    let (st, s1) :=
      match r.outcome with
      | .Passed => (RunItemState.passed, { s0 with passed := s0.passed + 1 })
      | .Failed => (RunItemState.failed, { s0 with failed := s0.failed + 1 })
      | .Skipped => (RunItemState.skipped, { s0 with skipped := s0.skipped + 1 })
      | .NotExecuted => (RunItemState.skipped, { s0 with skipped := s0.skipped + 1 })
    let s2 :=
      if r.duration > 0 then { s1 with executionTimeMs := s1.executionTimeMs + r.duration }
      else s1
    let s3 := { s2 with total := s2.total + 1 }
    { itemStates := mapSet acc.itemStates item.id st, summary := s3 }

/-- The skip-fill loop of `markMissingExpectedResultsAsSkipped`
(`resultMapper.ts:129-138`): every collected runnable leaf whose id has no
recorded state is marked skipped and counted. -/
def fillFold : List (String × TestItem) → SMap RunItemState → SMap RunItemState × Nat
  | [], states => (states, 0)
  | (i, _) :: rest, states =>
    if (mapGet states i).isSome then fillFold rest states
    else
      let (s', n) := fillFold rest (mapSet states i RunItemState.skipped)
      (s', n + 1)

/-- `markMissingExpectedResultsAsSkipped` (`resultMapper.ts:112-141`):
nothing to do without expected items; otherwise collect the runnable leaves
of every expected root and skip-fill the unmatched ones. -/
def markMissingExpectedResultsAsSkipped (expectedItems : Option (List TestItem))
    (itemStates : SMap RunItemState) : SMap RunItemState × Nat :=
  match expectedItems with
  | none => (itemStates, 0)
  | some roots =>
    if roots.length = 0 then (itemStates, 0)
    else fillFold (collectAllRunnable roots) itemStates

/-- The outcome-application phase of `applyTestResults`
(`resultMapper.ts:29-103`): build the two indexes, then fold the parsed
results through `applyOneResult`. -/
def applyOutcomesOnly (controller : List TestItem) (results : List TrxTestResult) :
    ApplyResult :=
  let maps := buildTestItemMaps controller
  results.foldl (applyOneResult maps.2 maps.1)
    { itemStates := [], summary := ⟨0, 0, 0, 0, 0⟩ }

/-- `applyTestResults` (`resultMapper.ts:22-110`): apply every parsed
outcome, then skip-fill the expected leaves that received none, folding the
fill count into `skipped` and `total`. -/
def applyTestResults (controller : List TestItem) (results : List TrxTestResult)
    (expectedItems : Option (List TestItem)) : ApplyResult :=
  let afterOutcomes := applyOutcomesOnly controller results
  let fill := markMissingExpectedResultsAsSkipped expectedItems afterOutcomes.itemStates
  { itemStates := fill.1,
    summary := { afterOutcomes.summary with
      skipped := afterOutcomes.summary.skipped + fill.2,
      total := afterOutcomes.summary.total + fill.2 } }

/-- The number of parsed outcomes that resolve to a tree item — the
characterization used to state C2, independent of the summary fold. -/
def countMatchedOutcomes (controller : List TestItem) (results : List TrxTestResult) : Nat :=
  let maps := buildTestItemMaps controller
  results.countP (fun r => (resolveTestItem maps.2 maps.1 r.fullyQualifiedName r.displayName).isSome)

/-- The skip-fill count produced inside `applyTestResults` for a given
request: the second component of `markMissingExpectedResultsAsSkipped`. -/
def skipFillCount (controller : List TestItem) (results : List TrxTestResult)
    (expectedItems : List TestItem) : Nat :=
  (markMissingExpectedResultsAsSkipped (some expectedItems)
    (applyOutcomesOnly controller results).itemStates).2

/-- Prepend a character to the first field of a split result. -/
def consFirst (c : Char) : List (List Char) → List (List Char)
  | [] => [[c]]
  | l :: ls => (c :: l) :: ls

/-- JS `s.split(sep)` for a one-character separator: fields may be empty and
there is always at least one field. -/
def splitOnChar (sep : Char) : List Char → List (List Char)
  | [] => [[]]
  | c :: rest =>
    if c = sep then [] :: splitOnChar sep rest
    else consFirst c (splitOnChar sep rest)

/-- Numeric value of a run of decimal digit characters. -/
def digitsToNat (ds : List Char) : Nat :=
  ds.foldl (fun a c => a * 10 + (c.toNat - 48)) 0

/-- JS `parseInt(s, 10)`: skip leading whitespace, read an optional sign and
the leading run of decimal digits; `none` models NaN (no digits at all). -/
def jsParseInt (cs : List Char) : Option Int :=
  let trimmed := cs.dropWhile isWsChar
  let signAndRest : Int × List Char :=
    match trimmed with
    | '-' :: r => (-1, r)
    | '+' :: r => (1, r)
    | r => (1, r)
  let ds := signAndRest.2.takeWhile Char.isDigit
  if ds.isEmpty then none else some (signAndRest.1 * (digitsToNat ds : Int))

/-- JS `parseFloat('0.' + frac)` for the TRX fraction field: the value of the
leading digit run of `frac` scaled below one. (`parseFloat` never yields NaN
here because the string starts with `0.`; exponent notation, which cannot
occur in a TRX duration fraction, is not modeled.) -/
def jsParseFraction (frac : List Char) : ℚ :=
  let ds := frac.takeWhile Char.isDigit
  (digitsToNat ds : ℚ) / ((10 : ℚ) ^ ds.length)

/-- `parseDuration` (`trxParser.ts`, lines 326-344 of the concatenated
source): `''` is falsy and yields 0; a split on `:` with other than three
parts yields 0; otherwise the `HH`, `MM` and `SS` fields go through
`parseInt` (NaN — modeled as `none` — propagates through the arithmetic)
and the optional fraction through `parseFloat('0.' + frac)`. -/
def parseDuration (duration : String) : Option ℚ :=
  if duration = "" then some 0
  else
    let parts := splitOnChar ':' duration.data
    if parts.length ≠ 3 then some 0
    else do
      let hours ← jsParseInt (parts.getD 0 [])
      let minutes ← jsParseInt (parts.getD 1 [])
      let secondsParts := splitOnChar '.' (parts.getD 2 [])
      let seconds ← jsParseInt (secondsParts.getD 0 [])
      let fraction : ℚ :=
        if secondsParts.length > 1 then jsParseFraction (secondsParts.getD 1 []) else 0
      pure (((hours : ℚ) * 3600 + (minutes : ℚ) * 60 + (seconds : ℚ)) * 1000 + fraction * 1000)

/-- `encodeFilterValue` (`filterBuilder.ts:53-63`): `value.replace(/,/g, '%2C')`
at character level. -/
def encodeFilterValue : List Char → List Char
  | [] => []
  | c :: rest =>
    if c = ',' then '%' :: '2' :: 'C' :: encodeFilterValue rest
    else c :: encodeFilterValue rest

/-- String wrapper of `encodeFilterValue`. -/
def encodeFilterValueS (s : String) : String :=
  ⟨encodeFilterValue s.data⟩

/-- The decoding direction named by the spec ("decoding `%2C`→`,` recovers
the original"): leftmost, non-overlapping replacement of `%2C` by a comma,
i.e. `replace(/%2C/g, ',')`. Not a source function — it is the inverse the
spec's round-trip sentence appeals to. -/
def decodePercent2C : List Char → List Char
  | [] => []
  | [c] => [c]
  | [c, d] => [c, d]
  | c :: d :: e :: rest =>
    if c = '%' ∧ d = '2' ∧ e = 'C' then ',' :: decodePercent2C rest
    else c :: decodePercent2C (d :: e :: rest)

/-- `buildVSTestFilter` (`filterBuilder.ts:19-43`): one clause per item —
exact match through the metadata's qualified name for leaves, contains match
through the id's second `|`-component for containers — OR-joined with `|`. -/
def buildVSTestFilter (tests : List TestItem) : String :=
  let filterParts := tests.foldr (fun item acc =>
    match item.metadata with
    | none =>
      let parts := item.id.splitOn "|"
      if parts.length = 2 && parts[1]! ≠ "" then
        ("FullyQualifiedName~" ++ encodeFilterValueS parts[1]!) :: acc
      else acc
    | some m =>
      ("FullyQualifiedName=" ++ encodeFilterValueS m.fullyQualifiedName) :: acc) []
  String.intercalate "|" filterParts

/-- JS `s.startsWith(p)` at character level. -/
def strStartsWith (s p : String) : Bool :=
  p.data.isPrefixOf s.data

/-- JS `s.endsWith(p)` at character level. -/
def strEndsWith (s p : String) : Bool :=
  p.data.reverse.isPrefixOf s.data.reverse

/-- The filter predicate of `findTrxFile` (`dotnetTestRunner.ts:90-92`):
`file.startsWith(logFilePrefix) && file.endsWith('.trx')`. -/
def isMatchingTrxFile (logFilePfx f : String) : Bool :=
  strStartsWith f logFilePfx && strEndsWith f ".trx"

/-- `findTrxFile` (`dotnetTestRunner.ts:82-100`). The filesystem is passed
in explicitly: whether the results directory exists and its listing in
directory order. `path.join` on an already-normalized directory is the
separator-joined concatenation. -/
def findTrxFile (dirExists : Bool) (files : List String)
    (resultsDirectory logFilePfx : String) : Option String :=
  if !dirExists then none
  else
    let trxFiles := files.filter (isMatchingTrxFile logFilePfx)
    match trxFiles with
    | [] => none
    | f :: _ => some (resultsDirectory ++ "/" ++ f)

/-- JS `s.split(/\r?\n/)` at character level: a line feed, optionally
preceded by a carriage return, separates fields; always at least one field. -/
def splitLinesRN : List Char → List (List Char)
  | [] => [[]]
  | '\r' :: '\n' :: rest => [] :: splitLinesRN rest
  | '\n' :: rest => [] :: splitLinesRN rest
  | c :: rest => consFirst c (splitLinesRN rest)

/-- The buffer/emitted state of one output stream in `spawnProcess`
(`process.ts:147-172`): `stdoutBuffer` plus the lines already handed to the
callback. -/
structure StreamState where
  buffer : List Char
  emitted : List (List Char)
deriving DecidableEq, Repr

/-- One `data` event (`process.ts:159-173`): append the chunk to the buffer,
split, keep the last (possibly incomplete) field as the new buffer
(`lines.pop() || ''`), and invoke the callback for each remaining line —
but only when the line is truthy (`if (line && options.onStdout)`), so empty
lines are not delivered. -/
def feedChunk (st : StreamState) (chunk : List Char) : StreamState :=
  let lines := splitLinesRN (st.buffer ++ chunk)
  { buffer := lines.getLastD [],
    emitted := st.emitted ++ (lines.dropLast.filter (fun l => !l.isEmpty)) }

/-- The `close` handler's trailing flush (`process.ts:199-205`): a non-empty
buffer is delivered as a final line. -/
def flushStream (st : StreamState) : List (List Char) :=
  st.emitted ++ (if st.buffer.isEmpty then [] else [st.buffer])

/-- All lines delivered to the callback for one stream over a whole process
lifetime: fold the chunks in receipt order, then flush. -/
def streamLines (chunks : List (List Char)) : List (List Char) :=
  flushStream (chunks.foldl feedChunk ⟨[], []⟩)

/-- A `TestRun` state-update call made by a handler. -/
inductive RunEvent : Type where
  | enqueued (id : String)
  | started (id : String)
  | passed (id : String)
  | skippedEv (id : String)
  | errored (id : String) (message : String)
deriving DecidableEq, Repr

/-- `for (const test of tests) run.errored(test, new TestMessage(msg))` —
the error-reporting loop shared by the run and debug handlers. -/
def erroredEach : List TestItem → String → List RunEvent
  | [], _ => []
  | t :: ts, msg => RunEvent.errored t.id msg :: erroredEach ts msg

/-- `for (const test of tests) run.passed(test)` (`debugHandler.ts:179,183`). -/
def passedEach : List TestItem → List RunEvent
  | [] => []
  | t :: ts => RunEvent.passed t.id :: passedEach ts

/-- What became of the result log of one group invocation once the external
process has completed. -/
inductive LogOutcome : Type where
  | missing
  | parseFailed (message : String)
  | parsed (results : List TrxTestResult)

/-- How a group invocation reports: either through the correlator or through
direct per-item `TestRun` calls. -/
inductive GroupReport : Type where
  | correlated (r : ApplyResult)
  | events (evs : List RunEvent)

/-- The direct `TestRun` calls of a group report (empty for the correlated
path, whose calls live inside `applyTestResults`). -/
def reportEvents : GroupReport → List RunEvent
  | .correlated _ => []
  | .events evs => evs

/-- The result-handling tail of the filtered branch of `createRunHandler`
(`runHandler.ts`, lines 396-427 of the concatenated source): a parsed TRX is
correlated against the requested items; a parse failure errors every
requested item with the parser's message; a missing TRX errors every
requested item with `'TRX file not found'`. -/
def runFilteredTail (controller : List TestItem) (tests : List TestItem)
    (log : LogOutcome) : GroupReport :=
  match log with
  | .parsed results => .correlated (applyTestResults controller results (some tests))
  | .parseFailed msg => .events (erroredEach tests msg)
  | .missing => .events (erroredEach tests "TRX file not found")

/-- The result-handling tail of the VSTest (hosted-runner) branch of
`createDebugHandler` (`debugHandler.ts:161-184`): a parsed TRX is correlated
with no expected set; a parse failure errors every item with
`'TRX parse error: ' + msg`; a missing TRX marks every item passed
(`'TRX not found - marking tests as passed'`). -/
def debugVSTestTail (controller : List TestItem) (tests : List TestItem)
    (log : LogOutcome) : GroupReport :=
  match log with
  | .parsed results => .correlated (applyTestResults controller results none)
  | .parseFailed msg => .events (erroredEach tests ("TRX parse error: " ++ msg))
  | .missing => .events (passedEach tests)

/-- An occurrence during one readiness wait of the debug handler: an output
chunk from either stream, the `close` or `error` event of the child process,
a cancellation request, or the 30-second timer firing. -/
inductive WaitEvent : Type where
  | output (text : String)
  | closed
  | procError
  | cancelled
  | timeout
deriving DecidableEq, Repr

/-- The resolution state of one readiness wait: the value the promise
resolved with (if any) and whether `child.kill()` was called. -/
structure WaitOutcome (α : Type) where
  resolution : Option α
  killed : Bool

/-- One event of the shared wait structure of `waitForXunitV3Ready`
(`debugHandler.ts:259-297`) and `waitForTesthostPid`
(`debugHandler.ts:311-354`): output resolves through the strategy's
readiness pattern; `close` and `error` resolve with the failure value;
cancellation kills unconditionally and resolves with the failure value;
the timer kills and resolves with the failure value only when still
unresolved. Events after resolution leave the resolution unchanged. -/
def waitStep {α : Type} (ready : String → Option α) (failVal : α)
    (st : WaitOutcome α) (e : WaitEvent) : WaitOutcome α :=
  match e with
  | .output t =>
    match st.resolution with
    | some _ => st
    | none =>
      match ready t with
      | some v => { st with resolution := some v }
      | none => st
  | .closed =>
    match st.resolution with
    | some _ => st
    | none => { st with resolution := some failVal }
  | .procError =>
    match st.resolution with
    | some _ => st
    | none => { st with resolution := some failVal }
  | .cancelled =>
    match st.resolution with
    | some _ => { st with killed := true }
    | none => { resolution := some failVal, killed := true }
  | .timeout =>
    match st.resolution with
    | some _ => st
    | none => { resolution := some failVal, killed := true }

/-- Run a readiness wait over a finite event trace. -/
def runReadinessWait {α : Type} (ready : String → Option α) (failVal : α)
    (evs : List WaitEvent) : WaitOutcome α :=
  evs.foldl (waitStep ready failVal) ⟨none, false⟩

/-- Lower-case an ASCII character sequence (the `/i` flag). -/
def lowerChars (cs : List Char) : List Char :=
  cs.map Char.toLower

/-- `/Waiting for debugger to be attached/i.test(text)`
(`debugHandler.ts:272`): case-insensitive substring search. -/
def xunitReadinessSignal (text : String) : Bool :=
  decide ((lowerChars "Waiting for debugger to be attached".data) <:+: lowerChars text.data)

/-- The literal `process id:` of the testhost readiness regex, lower-cased. -/
def pidKeyChars : List Char :=
  ['p', 'r', 'o', 'c', 'e', 's', 's', ' ', 'i', 'd', ':']

/-- Match `/Process Id:\s*(\d+)/i` at the start of the sequence: the literal
(case-insensitively), optional whitespace, then at least one digit; the
captured digits go through `parseInt(-, 10)` (`debugHandler.ts:328-331`). -/
def matchPidHere (cs : List Char) : Option Nat :=
  if pidKeyChars <+: lowerChars cs then
    let afterKey := cs.drop pidKeyChars.length
    let digits := (afterKey.dropWhile isWsChar).takeWhile Char.isDigit
    if digits.isEmpty then none else some (digitsToNat digits)
  else none

/-- Unanchored search for the testhost pid pattern in one output chunk. -/
def findPidInText : List Char → Option Nat
  | [] => none
  | c :: rest =>
    match matchPidHere (c :: rest) with
    | some n => some n
    | none => findPidInText rest

/-- `waitForXunitV3Ready` (`debugHandler.ts:238-298`) over an event trace:
resolves `true` on the xUnit v3 ready phrase, `false` on close, error,
cancellation or timeout. -/
def runXunitWait (evs : List WaitEvent) : WaitOutcome Bool :=
  runReadinessWait (fun t => if xunitReadinessSignal t then some true else none) false evs

/-- `waitForTesthostPid` (`debugHandler.ts:304-355`) over an event trace:
resolves the parsed pid on a `Process Id:` line, `undefined` (here `none`)
on close, error, cancellation or timeout. -/
def runTesthostWait (evs : List WaitEvent) : WaitOutcome (Option Nat) :=
  runReadinessWait (fun t => (findPidInText t.data).map some) none evs

/-- The message of the xUnit v3 no-readiness branch (`debugHandler.ts:86`). -/
def xunitNotReadyMessage : String :=
  "xUnit v3 test runner did not start"

/-- The message of the missing-attach-target branch (`debugHandler.ts:112`). -/
def noAttachTargetMessage : String :=
  "Could not find test runner process to attach to"

/-- The error branch taken when the xUnit v3 readiness wait yields `false`
(`debugHandler.ts:83-89`). -/
def xunitNotReadyEvents (tests : List TestItem) : List RunEvent :=
  erroredEach tests xunitNotReadyMessage

/-- The error branch taken when neither a pid nor a process name is
available after the waits (`debugHandler.ts:109-115`). -/
def noAttachTargetEvents (tests : List TestItem) : List RunEvent :=
  erroredEach tests noAttachTargetMessage

/-- One entry of a debug-adapter-protocol exception-breakpoint request: an
exception type name together with its break mode. -/
structure DapExceptionOption where
  typeName : String
  breakMode : String
deriving DecidableEq, Repr

/-- Modelled from the spec: the shape of an outgoing "set exception filters"
debug-protocol message as seen by the session's protocol interceptor. The
interceptor itself is not present under `src/`; only its installing caller
(`createDebugHandler`) is. A message carries its command name, the active
filter ids, and per-type break-mode overrides. -/
structure DapMessage where
  command : String
  filters : List String
  exceptionOptions : List DapExceptionOption
deriving DecidableEq, Repr

/-- Modelled from the spec (§4.5): the protocol-message interceptor
"rewriting any outgoing 'set exception filters' message by force-adding a
'never break' override for one exception type known to fire spuriously
inside the test framework's own init code". Messages with any other command
pass through untouched. -/
def interceptSetExceptionFilters (targetTypeName : String) (msg : DapMessage) :
    DapMessage :=
  if msg.command = "setExceptionBreakpoints" then
    { msg with exceptionOptions :=
        msg.exceptionOptions ++ [⟨targetTypeName, "never"⟩] }
  else msg

/-- A childless non-theory method leaf, as discovery produces for plain
facts. -/
def runLeaf (i fqn : String) : TestItem :=
  TestItem.mk i
    (some { fullyQualifiedName := fqn, displayName := none, kind := "method", isTheory := none })
    []

/-- Five requested method leaves. -/
def fiveLeaves : List TestItem :=
  [runLeaf "leaf1" "T.M1", runLeaf "leaf2" "T.M2", runLeaf "leaf3" "T.M3",
   runLeaf "leaf4" "T.M4", runLeaf "leaf5" "T.M5"]

/-- A controller owning the five leaves under one project root. -/
def fiveController : List TestItem :=
  [TestItem.mk "proj" none fiveLeaves]

/-- Three reported outcomes, matching the first three of the five leaves. -/
def threeResults : List TrxTestResult :=
  [{ testName := "T.M1", displayName := "T.M1", fullyQualifiedName := "T.M1",
     outcome := .Passed, duration := 10 },
   { testName := "T.M2", displayName := "T.M2", fullyQualifiedName := "T.M2",
     outcome := .Failed, duration := 5 },
   { testName := "T.M3", displayName := "T.M3", fullyQualifiedName := "T.M3",
     outcome := .NotExecuted, duration := 0 }]

/-- A parameterized case leaf `Case A` of theory `N.C.M`. -/
def caseItemA : TestItem :=
  TestItem.mk "proj|N.C.M|Case A"
    (some { fullyQualifiedName := "N.C.M", displayName := some "Case A",
            kind := "case", isTheory := some true })
    []

/-- A parameterized case leaf `Case B` of theory `N.C.M`. -/
def caseItemB : TestItem :=
  TestItem.mk "proj|N.C.M|Case B"
    (some { fullyQualifiedName := "N.C.M", displayName := some "Case B",
            kind := "case", isTheory := some true })
    []

/-- A case index holding the two case leaves of `N.C.M`. -/
def truncCaseMap : SMap TestItem :=
  [(buildCaseLookupKey "N.C.M" "Case A", caseItemA),
   (buildCaseLookupKey "N.C.M" "Case B", caseItemB)]

/-- A leaf whose qualified name contains a comma, as generic-type tests do. -/
def leafXY : TestItem :=
  TestItem.mk "proj|N.C.M(x,y)"
    (some { fullyQualifiedName := "N.C.M(x,y)", displayName := none,
            kind := "method", isTheory := none })
    []

/-
Shared helper lemmas about the association-list model of JS `Map`.
-/

/-- Looking up any key after `mapSet`: the written key yields the new value,
everything else is untouched. -/
theorem mapGet_mapSet {α : Type} (m : SMap α) (k i : String) (v : α) :
    mapGet (mapSet m k v) i = if k = i then some v else mapGet m i := by
  induction m with
  | nil =>
    simp only [mapSet, mapGet]
  | cons p rest ih =>
    obtain ⟨k', v'⟩ := p
    by_cases hk : k' = k
    · subst hk
      simp only [mapSet, if_pos rfl, mapGet]
      by_cases hi : k' = i
      · subst hi
        simp
      · simp [mapGet, hi]
    · simp only [mapSet, if_neg hk, mapGet]
      by_cases hi : k' = i
      · subst hi
        have : ¬ k = k' := fun h => hk h.symm
        simp [this]
      · simp [hi, ih]

/-- The skip-fill loop never erases a recorded state. -/
theorem fillFold_preserves (l : List (String × TestItem)) (states : SMap RunItemState)
    (i : String) (h : (mapGet states i).isSome) :
    (mapGet (fillFold l states).1 i).isSome := by
  induction l generalizing states with
  | nil => simpa [fillFold]
  | cons p rest ih =>
    obtain ⟨j, t⟩ := p
    by_cases hj : (mapGet states j).isSome
    · simpa [fillFold, hj] using ih states h
    · have hrec := ih (mapSet states j RunItemState.skipped)
        (by
          rw [mapGet_mapSet]
          by_cases hji : j = i
          · simp [hji]
          · simpa [hji] using h)
      simp only [fillFold, hj, if_false, Bool.false_eq_true]
      cases hff : fillFold rest (mapSet states j RunItemState.skipped) with
      | mk s' n => simpa [hff] using hrec

/-- After the skip-fill loop, every id listed in the collected entries has a
recorded state. -/
theorem fillFold_covers (l : List (String × TestItem)) (states : SMap RunItemState)
    (i : String) (t : TestItem) (h : (i, t) ∈ l) :
    (mapGet (fillFold l states).1 i).isSome := by
  induction l generalizing states with
  | nil => cases h
  | cons p rest ih =>
    obtain ⟨j, u⟩ := p
    rcases List.mem_cons.mp h with heq | hmem
    · have hij : i = j := by
        injection heq with h1 h2
      subst hij
      by_cases hj : (mapGet states i).isSome
      · simpa [fillFold, hj] using fillFold_preserves rest states i hj
      · have hset : (mapGet (mapSet states i RunItemState.skipped) i).isSome := by
          rw [mapGet_mapSet]; simp
        have hrec := fillFold_preserves rest (mapSet states i RunItemState.skipped) i hset
        simp only [fillFold, hj, if_false, Bool.false_eq_true]
        cases hff : fillFold rest (mapSet states i RunItemState.skipped) with
        | mk s' n => simpa [hff] using hrec
    · by_cases hj : (mapGet states j).isSome
      · simpa [fillFold, hj] using ih states hmem
      · have hrec := ih (mapSet states j RunItemState.skipped) hmem
        simp only [fillFold, hj, if_false, Bool.false_eq_true]
        cases hff : fillFold rest (mapSet states j RunItemState.skipped) with
        | mk s' n => simpa [hff] using hrec

/-- C1: for every run request whose parsed outcomes get applied, every
originally-requested leaf-runnable item ends with exactly one recorded
terminal state (the `itemStates` map holds one of passed / failed / errored
/ skipped per id): each requested leaf the outcome loop did not reach is
marked skipped by the skip-fill pass, so no requested leaf is left running
or enqueued when the run completes. -/
theorem requestedLeaves_terminal_after_apply
    (controller : List TestItem) (results : List TrxTestResult)
    (expected : List TestItem) (entry : String × TestItem)
    (hmem : entry ∈ collectAllRunnable expected) :
    ∃ st : RunItemState,
      mapGet (applyTestResults controller results (some expected)).itemStates entry.1
        = some st := by
  obtain ⟨i, t⟩ := entry
  have hexp : expected.length ≠ 0 := by
    intro hlen
    rw [List.length_eq_zero] at hlen
    subst hlen
    simp [collectAllRunnable] at hmem
  have : (mapGet (applyTestResults controller results (some expected)).itemStates i).isSome := by
    simp only [applyTestResults, markMissingExpectedResultsAsSkipped, hexp, if_false]
    exact fillFold_covers _ _ i t hmem
  exact Option.isSome_iff_exists.mp this

/-- The collected runnable set of a single requested method leaf. -/
theorem collect_single_leaf :
    collectAllRunnable [runLeaf "leaf1" "T.M1"] = [("leaf1", runLeaf "leaf1" "T.M1")] := by
  simp [collectAllRunnable, collectRunnableItems, runLeaf, collectLoop,
    collectCondition, isLeafRunnableItem, mapSet, TestItem.id, TestItem.metadata,
    TestItem.children]

/-- Closed instance of C1: with one requested leaf and no reported outcomes,
the leaf ends skip-filled with a recorded terminal state. -/
theorem requestedLeaves_terminal_after_apply_witness :
    ∃ st : RunItemState,
      mapGet (applyTestResults [] [] (some [runLeaf "leaf1" "T.M1"])).itemStates "leaf1"
        = some st :=
  requestedLeaves_terminal_after_apply [] [] [runLeaf "leaf1" "T.M1"]
    ("leaf1", runLeaf "leaf1" "T.M1")
    (by rw [collect_single_leaf]; exact List.mem_singleton.mpr rfl)

/-- The outcome loop adds one to `total` exactly for the outcomes that
resolve to a tree item. -/
theorem foldOutcomes_total (cm mm : SMap TestItem) (results : List TrxTestResult)
    (acc : ApplyResult) :
    (results.foldl (applyOneResult cm mm) acc).summary.total
      = acc.summary.total +
        results.countP
          (fun r => (resolveTestItem cm mm r.fullyQualifiedName r.displayName).isSome) := by
  induction results generalizing acc with
  | nil => simp
  | cons r rs ih =>
    rw [List.foldl_cons, ih, List.countP_cons]
    have hone : (applyOneResult cm mm acc r).summary.total
        = acc.summary.total +
          if (resolveTestItem cm mm r.fullyQualifiedName r.displayName).isSome then 1 else 0 := by
      unfold applyOneResult
      cases hres : resolveTestItem cm mm r.fullyQualifiedName r.displayName with
      | none => simp
      | some item =>
        simp only [Option.isSome_some, if_true]
        cases r.outcome <;> (dsimp only) <;> split <;> rfl
    rw [hone]
    by_cases hp : (resolveTestItem cm mm r.fullyQualifiedName r.displayName).isSome
    · simp [hp]; omega
    · simp [hp]

/-- The collected runnable set of the five requested method leaves. -/
theorem collect_five_leaves : collectAllRunnable fiveLeaves =
    [("leaf1", runLeaf "leaf1" "T.M1"), ("leaf2", runLeaf "leaf2" "T.M2"),
     ("leaf3", runLeaf "leaf3" "T.M3"), ("leaf4", runLeaf "leaf4" "T.M4"),
     ("leaf5", runLeaf "leaf5" "T.M5")] := by
  simp [collectAllRunnable, collectRunnableItems, fiveLeaves, runLeaf, collectLoop,
    collectCondition, isLeafRunnableItem, mapSet, TestItem.id, TestItem.metadata,
    TestItem.children]

/-- Three of five requested leaves got outcomes, so the skip-fill pass fills
exactly the remaining two. -/
theorem skip_fill_five : skipFillCount fiveController threeResults fiveLeaves = 2 := by
  simp only [skipFillCount, markMissingExpectedResultsAsSkipped]
  rw [collect_five_leaves]
  decide

/-- The five-leaf, three-outcome run ends with `total = 5`. -/
theorem total_five :
    (applyTestResults fiveController threeResults (some fiveLeaves)).summary.total = 5 := by
  simp only [applyTestResults, markMissingExpectedResultsAsSkipped]
  rw [collect_five_leaves]
  decide

/-- C2: the returned summary's `total` is the number of parsed outcomes that
matched a tree item plus the number of expected leaves that received no
outcome and were skip-filled; in particular, requesting five leaves with
three reported outcomes skip-fills two leaves and yields `total = 5`. -/
theorem summary_total_matched_plus_skipFilled :
    (∀ (controller : List TestItem) (results : List TrxTestResult)
        (expected : List TestItem),
      (applyTestResults controller results (some expected)).summary.total
        = countMatchedOutcomes controller results
          + skipFillCount controller results expected)
    ∧ skipFillCount fiveController threeResults fiveLeaves = 2
    ∧ (applyTestResults fiveController threeResults (some fiveLeaves)).summary.total = 5 := by
  refine ⟨?_, skip_fill_five, total_five⟩
  intro controller results expected
  show (applyOutcomesOnly controller results).summary.total
      + (markMissingExpectedResultsAsSkipped (some expected)
          (applyOutcomesOnly controller results).itemStates).2
    = countMatchedOutcomes controller results + skipFillCount controller results expected
  have h := foldOutcomes_total (buildTestItemMaps controller).2 (buildTestItemMaps controller).1
    results { itemStates := [], summary := ⟨0, 0, 0, 0, 0⟩ }
  simp only [applyOutcomesOnly, countMatchedOutcomes, skipFillCount, applyOutcomesOnly] at *
  omega

/-- C3: per parsed outcome the correlator tries, in order, the exact case
key `qualifiedName||displayName`, then — when the display name carries the
truncation marker — the stripped-prefix search over the case index, then the
plain qualified-name lookup in the method index; with `N.C.M||Case A` and
`N.C.M||Case B` present, the reported display name `Case A, ···}` resolves
to Case A's leaf instead of being dropped. -/
theorem resolveTestItem_match_order :
    (∀ (caseMap methodMap : SMap TestItem) (fqn dn : String) (item : TestItem),
      mapGet caseMap (buildCaseLookupKey fqn dn) = some item →
        resolveTestItem caseMap methodMap fqn dn = some item)
    ∧ (∀ (caseMap methodMap : SMap TestItem) (fqn dn : String) (item : TestItem),
      mapGet caseMap (buildCaseLookupKey fqn dn) = none →
        findCaseItemByTruncatedDisplayName fqn dn caseMap = some item →
          resolveTestItem caseMap methodMap fqn dn = some item)
    ∧ (∀ (caseMap methodMap : SMap TestItem) (fqn dn : String),
      mapGet caseMap (buildCaseLookupKey fqn dn) = none →
        findCaseItemByTruncatedDisplayName fqn dn caseMap = none →
          resolveTestItem caseMap methodMap fqn dn = mapGet methodMap fqn)
    ∧ resolveTestItem truncCaseMap [] "N.C.M" "Case A, ···\x7d" = some caseItemA := by
  refine ⟨?_, ?_, ?_, ?_⟩
  · intro caseMap methodMap fqn dn item h
    simp [resolveTestItem, h]
  · intro caseMap methodMap fqn dn item h1 h2
    simp [resolveTestItem, h1, h2]
  · intro caseMap methodMap fqn dn h1 h2
    simp [resolveTestItem, h1, h2]
  · rfl

/-- Closed instance of C3: the exact case key wins when present. -/
theorem resolveTestItem_match_order_witness :
    resolveTestItem truncCaseMap [] "N.C.M" "Case A" = some caseItemA :=
  resolveTestItem_match_order.1 truncCaseMap [] "N.C.M" "Case A" caseItemA rfl

/-- Encoding a comma-free head commutes with `cons`. -/
theorem encode_cons_comma (cs : List Char) :
    encodeFilterValue (',' :: cs) = '%' :: '2' :: 'C' :: encodeFilterValue cs := by
  simp [encodeFilterValue]

/-- Encoding a non-comma head keeps it. -/
theorem encode_cons_other (c : Char) (cs : List Char) (h : c ≠ ',') :
    encodeFilterValue (c :: cs) = c :: encodeFilterValue cs := by
  simp [encodeFilterValue, h]

/-- Decoding consumes a leading `%2C` into a comma. -/
theorem decode_pct (rest : List Char) :
    decodePercent2C ('%' :: '2' :: 'C' :: rest) = ',' :: decodePercent2C rest := by
  simp [decodePercent2C]

/-- Decoding keeps a head that does not open a `%2C` occurrence. -/
theorem decode_cons_other (c d e : Char) (rest : List Char)
    (h : ¬(c = '%' ∧ d = '2' ∧ e = 'C')) :
    decodePercent2C (c :: d :: e :: rest) = c :: decodePercent2C (d :: e :: rest) := by
  simp [decodePercent2C, h]

/-- An encoded sequence starting with a non-`%` character came from an input
with that same head. -/
theorem encodeFilterValue_cons_inv (cs : List Char) (a : Char) (tail : List Char)
    (h : encodeFilterValue cs = a :: tail) (ha : a ≠ '%') :
    ∃ cs', cs = a :: cs' ∧ encodeFilterValue cs' = tail := by
  cases cs with
  | nil => simp [encodeFilterValue] at h
  | cons c rest =>
    by_cases hc : c = ','
    · subst hc
      rw [encode_cons_comma] at h
      injection h with h1 h2
      exact absurd h1.symm ha
    · rw [encode_cons_other c rest hc] at h
      injection h with h1 h2
      exact ⟨rest, by rw [h1], h2⟩

/-- Decoding undoes encoding on inputs with no literal `%2C` substring. -/
theorem decode_encode_of_no_pct (x : List Char) (h : ¬(['%', '2', 'C'] <:+: x)) :
    decodePercent2C (encodeFilterValue x) = x := by
  induction x with
  | nil => rfl
  | cons c cs ih =>
    have hcs : ¬(['%', '2', 'C'] <:+: cs) := fun hin => h (List.infix_cons hin)
    by_cases hc : c = ','
    · subst hc
      rw [encode_cons_comma, decode_pct, ih hcs]
    · rw [encode_cons_other c cs hc]
      cases henc : encodeFilterValue cs with
      | nil =>
        have hcs0 : cs = [] := by
          cases cs with
          | nil => rfl
          | cons c' r =>
            by_cases h' : c' = ','
            · subst h'; rw [encode_cons_comma] at henc; cases henc
            · rw [encode_cons_other c' r h'] at henc; cases henc
        subst hcs0
        rfl
      | cons d tail =>
        cases tail with
        | nil =>
          have hone := ih hcs
          rw [henc] at hone
          have hd : decodePercent2C [d] = [d] := rfl
          rw [hd] at hone
          show decodePercent2C [c, d] = c :: cs
          rw [← hone]
          simp [decodePercent2C]
        | cons e tail2 =>
          by_cases htrip : c = '%' ∧ d = '2' ∧ e = 'C'
          · obtain ⟨hcp, hd2, heC⟩ := htrip
            obtain ⟨cs1, hcs1, henc1⟩ :=
              encodeFilterValue_cons_inv cs d (e :: tail2) henc (by rw [hd2]; decide)
            obtain ⟨cs2, hcs2, _⟩ :=
              encodeFilterValue_cons_inv cs1 e tail2 henc1 (by rw [heC]; decide)
            exact absurd ⟨[], cs2, by simp [hcp, hcs1, hd2, hcs2, heC]⟩ h
          · rw [decode_cons_other c d e tail2 htrip, ← henc, ih hcs]

/-- C4: a leaf clause is `FullyQualifiedName=` followed by the
comma-percent-encoded qualified name — concretely
`FullyQualifiedName=N.C.M(x%2Cy)` for `N.C.M(x,y)` — and decoding `%2C`
back to a comma recovers any original containing no literal `%2C`. -/
theorem filter_comma_encoding_roundtrip :
    (∀ (i : String) (m : TestMetadata) (children : List TestItem),
      buildVSTestFilter [TestItem.mk i (some m) children]
        = "FullyQualifiedName=" ++ encodeFilterValueS m.fullyQualifiedName)
    ∧ buildVSTestFilter [leafXY] = "FullyQualifiedName=N.C.M(x%2Cy)"
    ∧ (∀ x : List Char, ¬(['%', '2', 'C'] <:+: x) →
        decodePercent2C (encodeFilterValue x) = x) := by
  refine ⟨?_, by rfl, decode_encode_of_no_pct⟩
  intro i m children
  rfl

/-- Closed instance of C4: the round-trip at the generic-type-style name. -/
theorem filter_comma_encoding_roundtrip_witness :
    decodePercent2C (encodeFilterValue "N.C.M(x,y)".data) = "N.C.M(x,y)".data :=
  filter_comma_encoding_roundtrip.2.2 "N.C.M(x,y)".data (by decide)

/-- Counterexample to C5 as stated: `a:b:c` is malformed, yet the code
returns NaN (modeled `none`), not 0 ms — `parseInt('a')` is NaN and the
arithmetic propagates it past the shape check. -/
theorem parseDuration_nan_counterexample :
    parseDuration "a:b:c" = none ∧ parseDuration "a:b:c" ≠ some 0 := by
  refine ⟨by decide, by decide⟩

/-- The headline duration example evaluates exactly: one minute, two and a
half seconds is 62500 ms. -/
theorem parseDuration_example_value : parseDuration "00:01:02.5000000" = some 62500 := by
  have h1 : splitOnChar ':' "00:01:02.5000000".data
      = ["00".data, "01".data, "02.5000000".data] := by decide
  have h2 : jsParseInt "00".data = some 0 := by decide
  have h3 : jsParseInt "01".data = some 1 := by decide
  have h4 : splitOnChar '.' "02.5000000".data = ["02".data, "5000000".data] := by decide
  have h5 : jsParseInt "02".data = some 2 := by decide
  have h6 : ("5000000".data).takeWhile Char.isDigit = "5000000".data := by decide
  have h7 : digitsToNat "5000000".data = 5000000 := by decide
  rw [parseDuration]
  rw [if_neg (by decide : ¬("00:01:02.5000000" : String) = "")]
  rw [h1]
  norm_num [jsParseFraction, h2, h3, h4, h5, h6, h7, List.getD]

/-- C5 (amended): duration parsing splits on `:`; an empty input or one
without exactly three `:`-separated parts yields 0 ms;
`00:01:02.5000000` parses to exactly 62500 ms and `bad` to 0 ms; but a
three-part input with non-numeric fields yields NaN (`none`), not 0. -/
theorem parseDuration_spec_amended :
    (∀ s : String, (splitOnChar ':' s.data).length ≠ 3 → parseDuration s = some 0)
    ∧ parseDuration "00:01:02.5000000" = some 62500
    ∧ parseDuration "bad" = some 0
    ∧ parseDuration "a:b:c" = none := by
  refine ⟨?_, parseDuration_example_value, by decide, by decide⟩
  intro s h
  by_cases hs : s = ""
  · subst hs; rfl
  · simp [parseDuration, hs, h]

/-- Closed instance of C5 (amended): an input with no colon yields 0. -/
theorem parseDuration_spec_amended_witness : parseDuration "garbage" = some 0 :=
  parseDuration_spec_amended.1 "garbage" (by decide)

/-- C6: after interception, every outgoing "set exception filters" message
contains the added never-break entry for the target exception type,
whatever the incoming filter set held. -/
theorem interceptor_adds_never_break
    (targetTypeName : String) (msg : DapMessage)
    (h : msg.command = "setExceptionBreakpoints") :
    (⟨targetTypeName, "never"⟩ : DapExceptionOption)
      ∈ (interceptSetExceptionFilters targetTypeName msg).exceptionOptions := by
  simp [interceptSetExceptionFilters, h]

/-- Closed instance of C6 at a message with a non-empty incoming filter
set. -/
theorem interceptor_adds_never_break_witness :
    (⟨"SomeTestFramework.InitException", "never"⟩ : DapExceptionOption)
      ∈ (interceptSetExceptionFilters "SomeTestFramework.InitException"
          { command := "setExceptionBreakpoints",
            filters := ["user-unhandled", "all"],
            exceptionOptions := [⟨"OtherException", "always"⟩] }).exceptionOptions :=
  interceptor_adds_never_break "SomeTestFramework.InitException" _ rfl

/-- A resolved readiness wait keeps its resolution, whatever arrives later. -/
theorem waitFold_resolution_stable {α : Type} (ready : String → Option α) (failVal : α)
    (evs : List WaitEvent) (st : WaitOutcome α) (b : α) (h : st.resolution = some b) :
    (evs.foldl (waitStep ready failVal) st).resolution = some b := by
  induction evs generalizing st with
  | nil => simpa using h
  | cons e rest ih =>
    rw [List.foldl_cons]
    apply ih
    cases e <;> simp [waitStep, h]

/-- Once `child.kill()` ran, it stays run. -/
theorem waitFold_killed_stable {α : Type} (ready : String → Option α) (failVal : α)
    (evs : List WaitEvent) (st : WaitOutcome α) (h : st.killed = true) :
    (evs.foldl (waitStep ready failVal) st).killed = true := by
  induction evs generalizing st with
  | nil => simpa using h
  | cons e rest ih =>
    rw [List.foldl_cons]
    apply ih
    cases e with
    | output t =>
      cases hres : st.resolution <;> cases hready : ready t <;>
        simp [waitStep, hres, hready, h]
    | closed => cases hres : st.resolution <;> simp [waitStep, hres, h]
    | procError => cases hres : st.resolution <;> simp [waitStep, hres, h]
    | cancelled => cases hres : st.resolution <;> simp [waitStep, hres, h]
    | timeout => cases hres : st.resolution <;> simp [waitStep, hres, h]

/-- When no readiness signal occurs in the trace and the timer fires, the
wait resolves with the failure value — it never hangs. -/
theorem waitFold_no_signal_resolves {α : Type} (ready : String → Option α) (failVal : α) :
    ∀ (evs : List WaitEvent) (st : WaitOutcome α),
      (∀ t, WaitEvent.output t ∈ evs → ready t = none) →
      (st.resolution = none ∨ st.resolution = some failVal) →
      WaitEvent.timeout ∈ evs →
      (evs.foldl (waitStep ready failVal) st).resolution = some failVal := by
  intro evs
  induction evs with
  | nil =>
    intro st _ _ htime
    cases htime
  | cons e rest ih =>
    intro st hsig hres htime
    rw [List.foldl_cons]
    by_cases hte : e = WaitEvent.timeout
    · subst hte
      have hstep : (waitStep ready failVal st WaitEvent.timeout).resolution = some failVal := by
        rcases hres with h | h <;> simp [waitStep, h]
      exact waitFold_resolution_stable ready failVal rest _ failVal hstep
    · have hmem : WaitEvent.timeout ∈ rest := by
        rcases List.mem_cons.mp htime with heq | hm
        · exact absurd heq.symm hte
        · exact hm
      have hinv : (waitStep ready failVal st e).resolution = none
          ∨ (waitStep ready failVal st e).resolution = some failVal := by
        cases e with
        | output t =>
          have hr : ready t = none := hsig t (List.mem_cons_self _ _)
          rcases hres with h | h <;> simp [waitStep, h, hr]
        | closed => rcases hres with h | h <;> simp [waitStep, h]
        | procError => rcases hres with h | h <;> simp [waitStep, h]
        | cancelled => rcases hres with h | h <;> simp [waitStep, h]
        | timeout => rcases hres with h | h <;> simp [waitStep, h]
      exact ih _ (fun t ht => hsig t (List.mem_cons_of_mem _ ht)) hinv hmem

/-- When the trace has no readiness signal and none of the other resolving
events, the firing timer is what resolves the wait, and it kills the
child process. -/
theorem waitFold_timeout_kills {α : Type} (ready : String → Option α) (failVal : α) :
    ∀ (evs : List WaitEvent) (st : WaitOutcome α),
      (∀ t, WaitEvent.output t ∈ evs → ready t = none) →
      WaitEvent.closed ∉ evs → WaitEvent.procError ∉ evs → WaitEvent.cancelled ∉ evs →
      st.resolution = none →
      WaitEvent.timeout ∈ evs →
      (evs.foldl (waitStep ready failVal) st).killed = true := by
  intro evs
  induction evs with
  | nil =>
    intro st _ _ _ _ _ htime
    cases htime
  | cons e rest ih =>
    intro st hsig hnc hne hncan hres htime
    rw [List.foldl_cons]
    by_cases hte : e = WaitEvent.timeout
    · subst hte
      have hstep : (waitStep ready failVal st WaitEvent.timeout).killed = true := by
        simp [waitStep, hres]
      exact waitFold_killed_stable ready failVal rest _ hstep
    · cases e with
      | output t =>
        have hr : ready t = none := hsig t (List.mem_cons_self _ _)
        have hstep : waitStep ready failVal st (WaitEvent.output t) = st := by
          simp [waitStep, hres, hr]
        rw [hstep]
        refine ih st (fun u hu => hsig u (List.mem_cons_of_mem _ hu))
          (fun hmem => hnc (List.mem_cons_of_mem _ hmem))
          (fun hmem => hne (List.mem_cons_of_mem _ hmem))
          (fun hmem => hncan (List.mem_cons_of_mem _ hmem)) hres ?_
        rcases List.mem_cons.mp htime with heq | hm
        · cases heq
        · exact hm
      | closed => exact absurd (List.mem_cons_self _ _) hnc
      | procError => exact absurd (List.mem_cons_self _ _) hne
      | cancelled => exact absurd (List.mem_cons_self _ _) hncan
      | timeout => exact absurd rfl hte

/-- The error-reporting loop reaches every listed item. -/
theorem erroredEach_mem (tests : List TestItem) (msg : String) (t : TestItem)
    (h : t ∈ tests) : RunEvent.errored t.id msg ∈ erroredEach tests msg := by
  induction tests with
  | nil => cases h
  | cons a as ih =>
    rcases List.mem_cons.mp h with heq | hm
    · subst heq
      exact List.mem_cons_self _ _
    · exact List.mem_cons_of_mem _ (ih hm)

/-- The pass-reporting loop reaches every listed item. -/
theorem passedEach_mem (tests : List TestItem) (t : TestItem)
    (h : t ∈ tests) : RunEvent.passed t.id ∈ passedEach tests := by
  induction tests with
  | nil => cases h
  | cons a as ih =>
    rcases List.mem_cons.mp h with heq | hm
    · subst heq
      exact List.mem_cons_self _ _
    · exact List.mem_cons_of_mem _ (ih hm)

/-- C7 (amended): a readiness wait whose trace carries no readiness signal
resolves with the failure value once the fixed timer fires — never hanging —
and, when no other resolving event intervenes, kills the launched process;
the debug handler then errors every item of the group, with
`'xUnit v3 test runner did not start'` (which carries the "did not start"
phrase) on the direct-executable path and
`'Could not find test runner process to attach to'` on the hosted-runner
path. -/
theorem readiness_timeout_amended :
    (∀ evs : List WaitEvent,
      (∀ t, WaitEvent.output t ∈ evs → xunitReadinessSignal t = false) →
      WaitEvent.timeout ∈ evs →
      (runXunitWait evs).resolution = some false)
    ∧ (∀ evs : List WaitEvent,
      (∀ t, WaitEvent.output t ∈ evs → xunitReadinessSignal t = false) →
      WaitEvent.closed ∉ evs → WaitEvent.procError ∉ evs → WaitEvent.cancelled ∉ evs →
      WaitEvent.timeout ∈ evs →
      (runXunitWait evs).killed = true)
    ∧ (∀ evs : List WaitEvent,
      (∀ t, WaitEvent.output t ∈ evs → findPidInText t.data = none) →
      WaitEvent.timeout ∈ evs →
      (runTesthostWait evs).resolution = some none)
    ∧ (∀ evs : List WaitEvent,
      (∀ t, WaitEvent.output t ∈ evs → findPidInText t.data = none) →
      WaitEvent.closed ∉ evs → WaitEvent.procError ∉ evs → WaitEvent.cancelled ∉ evs →
      WaitEvent.timeout ∈ evs →
      (runTesthostWait evs).killed = true)
    ∧ (∀ (tests : List TestItem) (t : TestItem), t ∈ tests →
        RunEvent.errored t.id xunitNotReadyMessage ∈ xunitNotReadyEvents tests)
    ∧ (∀ (tests : List TestItem) (t : TestItem), t ∈ tests →
        RunEvent.errored t.id noAttachTargetMessage ∈ noAttachTargetEvents tests)
    ∧ ("did not start".data <:+: xunitNotReadyMessage.data) := by
  refine ⟨?_, ?_, ?_, ?_, ?_, ?_, by decide⟩
  · intro evs hsig htime
    exact waitFold_no_signal_resolves _ false evs ⟨none, false⟩
      (fun t ht => by simp [hsig t ht]) (Or.inl rfl) htime
  · intro evs hsig hnc hne hncan htime
    exact waitFold_timeout_kills _ false evs ⟨none, false⟩
      (fun t ht => by simp [hsig t ht]) hnc hne hncan rfl htime
  · intro evs hsig htime
    exact waitFold_no_signal_resolves _ none evs ⟨none, false⟩
      (fun t ht => by simp [hsig t ht]) (Or.inl rfl) htime
  · intro evs hsig hnc hne hncan htime
    exact waitFold_timeout_kills _ none evs ⟨none, false⟩
      (fun t ht => by simp [hsig t ht]) hnc hne hncan rfl htime
  · intro tests t h
    exact erroredEach_mem tests xunitNotReadyMessage t h
  · intro tests t h
    exact erroredEach_mem tests noAttachTargetMessage t h

/-- Counterexample to C7 as stated: on the hosted-runner path a bare timeout
kills the process and errors the group, but the message is
`'Could not find test runner process to attach to'`, which does not contain
the phrase "did not start". -/
theorem readiness_timeout_counterexample :
    (runTesthostWait [WaitEvent.timeout]).resolution = some none
    ∧ (runTesthostWait [WaitEvent.timeout]).killed = true
    ∧ noAttachTargetEvents [runLeaf "att1" "T.A1"]
        = [RunEvent.errored "att1" noAttachTargetMessage]
    ∧ ¬("did not start".data <:+: noAttachTargetMessage.data) :=
  ⟨by decide, by decide, by decide, by decide⟩

/-- Closed instance of C7 (amended): a trace consisting of just the firing
timer on the direct-executable path. -/
theorem readiness_timeout_amended_witness :
    (runXunitWait [WaitEvent.timeout]).resolution = some false
    ∧ (runXunitWait [WaitEvent.timeout]).killed = true
    ∧ RunEvent.errored "att2" xunitNotReadyMessage
        ∈ xunitNotReadyEvents [runLeaf "att2" "T.A2"] :=
  ⟨readiness_timeout_amended.1 [WaitEvent.timeout]
      (fun t ht => by simp at ht) (by decide),
   readiness_timeout_amended.2.1 [WaitEvent.timeout]
      (fun t ht => by simp at ht) (by decide) (by decide) (by decide) (by decide),
   readiness_timeout_amended.2.2.2.2.1 [runLeaf "att2" "T.A2"] (runLeaf "att2" "T.A2")
      (List.mem_singleton.mpr rfl)⟩

/-- C8 (amended): after a group's process completes, the run handler errors
every requested item with `'TRX file not found'` when the log is missing and
with the parser's message when it is unparseable; the debug handler errors
every item with `'TRX parse error: ...'` when the log is unparseable but
marks every item passed when the log is missing. -/
theorem group_log_failures_reported :
    (∀ (controller tests : List TestItem) (t : TestItem), t ∈ tests →
      RunEvent.errored t.id "TRX file not found"
        ∈ reportEvents (runFilteredTail controller tests LogOutcome.missing))
    ∧ (∀ (controller tests : List TestItem) (msg : String) (t : TestItem), t ∈ tests →
      RunEvent.errored t.id msg
        ∈ reportEvents (runFilteredTail controller tests (LogOutcome.parseFailed msg)))
    ∧ (∀ (controller tests : List TestItem) (msg : String) (t : TestItem), t ∈ tests →
      RunEvent.errored t.id ("TRX parse error: " ++ msg)
        ∈ reportEvents (debugVSTestTail controller tests (LogOutcome.parseFailed msg)))
    ∧ (∀ (controller tests : List TestItem) (t : TestItem), t ∈ tests →
      RunEvent.passed t.id
        ∈ reportEvents (debugVSTestTail controller tests LogOutcome.missing)) := by
  refine ⟨?_, ?_, ?_, ?_⟩
  · intro controller tests t h
    exact erroredEach_mem tests "TRX file not found" t h
  · intro controller tests msg t h
    exact erroredEach_mem tests msg t h
  · intro controller tests msg t h
    exact erroredEach_mem tests ("TRX parse error: " ++ msg) t h
  · intro controller tests t h
    exact passedEach_mem tests t h

/-- Counterexample to C8 as stated: on the debug handler's hosted-runner
path, a missing result log marks the group's items passed, not errored. -/
theorem missing_log_debug_counterexample :
    reportEvents (debugVSTestTail [] [runLeaf "dbg1" "T.D1"] LogOutcome.missing)
      = [RunEvent.passed "dbg1"]
    ∧ RunEvent.passed "dbg1" ≠ RunEvent.errored "dbg1" "TRX file not found" :=
  ⟨by decide, by decide⟩

/-- Closed instance of C8 (amended): one requested item, missing log, run
handler path. -/
theorem group_log_failures_reported_witness :
    RunEvent.errored "w8" "TRX file not found"
      ∈ reportEvents (runFilteredTail [] [runLeaf "w8" "T.W8"] LogOutcome.missing) :=
  group_log_failures_reported.1 [] [runLeaf "w8" "T.W8"] (runLeaf "w8" "T.W8")
    (List.mem_singleton.mpr rfl)

/-- `consFirst` never produces an empty split result. -/
theorem consFirst_ne_nil (c : Char) (ls : List (List Char)) : consFirst c ls ≠ [] := by
  cases ls <;> simp [consFirst]

/-- Splitting after a line feed separator. -/
theorem splitLinesRN_cons_nl (rest : List Char) :
    splitLinesRN ('\n' :: rest) = [] :: splitLinesRN rest := rfl

/-- Splitting after a carriage-return/line-feed separator. -/
theorem splitLinesRN_cons_crnl (rest : List Char) :
    splitLinesRN ('\r' :: '\n' :: rest) = [] :: splitLinesRN rest := rfl

/-- Splitting keeps a head character that starts no separator. -/
theorem splitLinesRN_cons_other (c : Char) (rest : List Char)
    (h2 : c ≠ '\n') (h1 : ∀ r, c = '\r' → rest ≠ '\n' :: r) :
    splitLinesRN (c :: rest) = consFirst c (splitLinesRN rest) := by
  rw [splitLinesRN.eq_def]
  split
  · simp_all
  · rename_i heq
    injection heq with hc hr
    exact absurd hr (h1 _ hc)
  · rename_i heq
    injection heq with hc hr
    exact absurd hc h2
  · rename_i c' r' heq
    injection heq with hc hr
    subst hc
    subst hr
    rfl

/-- A split always has at least one field. -/
theorem splitLinesRN_ne_nil (cs : List Char) : splitLinesRN cs ≠ [] := by
  induction cs using splitLinesRN.induct with
  | case1 => simp [splitLinesRN]
  | case2 rest ih => simp [splitLinesRN]
  | case3 rest ih => simp [splitLinesRN]
  | case4 c rest h1 h2 ih =>
    rw [splitLinesRN_cons_other c rest (fun h => h2 h) (fun r hc hr => h1 r hc hr)]
    exact consFirst_ne_nil c _

/-- A one-field split returns the whole input: no separator occurred. -/
theorem splitLinesRN_singleton : ∀ (cs l : List Char), splitLinesRN cs = [l] → cs = l := by
  intro cs
  induction cs using splitLinesRN.induct with
  | case1 =>
    intro l h
    exact (List.cons_eq_cons.mp h).1
  | case2 rest ih =>
    intro l h
    rw [splitLinesRN_cons_crnl] at h
    exact absurd (List.cons_eq_cons.mp h).2 (splitLinesRN_ne_nil rest)
  | case3 rest ih =>
    intro l h
    rw [splitLinesRN_cons_nl] at h
    exact absurd (List.cons_eq_cons.mp h).2 (splitLinesRN_ne_nil rest)
  | case4 c rest h1 h2 ih =>
    intro l h
    rw [splitLinesRN_cons_other c rest (fun hh => h2 hh) (fun r hc hr => h1 r hc hr)] at h
    cases hsr : splitLinesRN rest with
    | nil => exact absurd hsr (splitLinesRN_ne_nil rest)
    | cons f ls =>
      rw [hsr] at h
      simp only [consFirst] at h
      have hhead : c :: f = l := (List.cons_eq_cons.mp h).1
      have hls : ls = [] := (List.cons_eq_cons.mp h).2
      rw [hls] at hsr
      have hrf : rest = f := ih f hsr
      rw [hrf, ← hhead]

/-- `getLastD` skips a head when the tail is non-empty. -/
theorem getLastD_cons_of_ne_nil {α : Type} (a : α) (l : List α) (d : α) (h : l ≠ []) :
    (a :: l).getLastD d = l.getLastD d := by
  cases l with
  | nil => exact absurd rfl h
  | cons x xs => simp [List.getLastD]

/-- `dropLast` keeps a head when the tail is non-empty. -/
theorem dropLast_cons_of_ne_nil {α : Type} (a : α) (l : List α) (h : l ≠ []) :
    (a :: l).dropLast = a :: l.dropLast := by
  cases l with
  | nil => exact absurd rfl h
  | cons x xs => rfl

/-- Splitting a concatenation: the fields of `a` before its last one are
final, and `a`'s trailing field buffers onto the front of `b` — exactly the
invariant `spawnProcess` maintains across `data` events. -/
theorem splitLinesRN_append : ∀ (a b : List Char),
    splitLinesRN (a ++ b)
      = (splitLinesRN a).dropLast
        ++ splitLinesRN ((splitLinesRN a).getLastD [] ++ b) := by
  intro a
  induction a using splitLinesRN.induct with
  | case1 =>
    intro b
    simp [splitLinesRN, List.getLastD]
  | case2 rest ih =>
    intro b
    have hne := splitLinesRN_ne_nil rest
    rw [show splitLinesRN ('\r' :: '\n' :: rest) = [] :: splitLinesRN rest from rfl]
    rw [dropLast_cons_of_ne_nil _ _ hne, getLastD_cons_of_ne_nil _ _ _ hne]
    show [] :: splitLinesRN (rest ++ b)
        = ([] :: (splitLinesRN rest).dropLast)
          ++ splitLinesRN ((splitLinesRN rest).getLastD [] ++ b)
    rw [List.cons_append, ih b]
  | case3 rest ih =>
    intro b
    have hne := splitLinesRN_ne_nil rest
    rw [show splitLinesRN ('\n' :: rest) = [] :: splitLinesRN rest from rfl]
    rw [dropLast_cons_of_ne_nil _ _ hne, getLastD_cons_of_ne_nil _ _ _ hne]
    show [] :: splitLinesRN (rest ++ b)
        = ([] :: (splitLinesRN rest).dropLast)
          ++ splitLinesRN ((splitLinesRN rest).getLastD [] ++ b)
    rw [List.cons_append, ih b]
  | case4 c rest h1 h2 ih =>
    intro b
    have hother : splitLinesRN (c :: rest) = consFirst c (splitLinesRN rest) :=
      splitLinesRN_cons_other c rest (fun hh => h2 hh) (fun r hc hr => h1 r hc hr)
    cases hrest : rest with
    | nil =>
      have hsingle : splitLinesRN [c] = [[c]] := by
        rw [hrest] at hother
        rw [hother]
        rfl
      rw [hsingle]
      simp [List.getLastD]
    | cons d rest' =>
      rw [hrest] at hother ih h1
      have hd : c = '\r' → d ≠ '\n' := by
        intro hc hdn
        exact h1 rest' hc (by rw [hdn])
      have hlhs : splitLinesRN ((c :: d :: rest') ++ b)
          = consFirst c (splitLinesRN ((d :: rest') ++ b)) := by
        rw [List.cons_append]
        refine splitLinesRN_cons_other c ((d :: rest') ++ b) (fun hh => h2 hh) ?_
        intro r hc hr
        have hr' : d :: (rest' ++ b) = '\n' :: r := hr
        injection hr' with hh _
        exact hd hc hh
      cases hsr : splitLinesRN (d :: rest') with
      | nil => exact absurd hsr (splitLinesRN_ne_nil _)
      | cons f ls =>
        cases ls with
        | nil =>
          have hf : d :: rest' = f := splitLinesRN_singleton _ f hsr
          have hix : splitLinesRN ((d :: rest') ++ b) = splitLinesRN (f ++ b) := by
            rw [ih b, hsr]
            simp [List.getLastD]
          have hback : splitLinesRN ((c :: f) ++ b) = consFirst c (splitLinesRN (f ++ b)) := by
            rw [List.cons_append]
            refine splitLinesRN_cons_other c (f ++ b) (fun hh => h2 hh) ?_
            intro r hc hr
            rw [← hf] at hr
            have hr' : d :: (rest' ++ b) = '\n' :: r := hr
            injection hr' with hh _
            exact hd hc hh
          calc splitLinesRN ((c :: d :: rest') ++ b)
              = consFirst c (splitLinesRN ((d :: rest') ++ b)) := hlhs
            _ = consFirst c (splitLinesRN (f ++ b)) := by rw [hix]
            _ = splitLinesRN ((c :: f) ++ b) := hback.symm
            _ = (splitLinesRN (c :: d :: rest')).dropLast
                ++ splitLinesRN ((splitLinesRN (c :: d :: rest')).getLastD [] ++ b) := by
                rw [hother, hsr]
                simp [consFirst, List.getLastD]
        | cons x ls' =>
          have hne2 : (x :: ls' : List (List Char)) ≠ [] := by simp
          calc splitLinesRN ((c :: d :: rest') ++ b)
              = consFirst c (splitLinesRN ((d :: rest') ++ b)) := hlhs
            _ = consFirst c ((f :: x :: ls').dropLast
                  ++ splitLinesRN ((f :: x :: ls').getLastD [] ++ b)) := by
                rw [ih b, hsr]
            _ = (c :: f) :: ((x :: ls').dropLast
                  ++ splitLinesRN ((x :: ls').getLastD [] ++ b)) := by
                rw [dropLast_cons_of_ne_nil _ _ hne2, getLastD_cons_of_ne_nil _ _ _ hne2]
                simp [consFirst]
            _ = (splitLinesRN (c :: d :: rest')).dropLast
                ++ splitLinesRN ((splitLinesRN (c :: d :: rest')).getLastD [] ++ b) := by
                rw [hother, hsr]
                simp only [consFirst]
                rw [dropLast_cons_of_ne_nil _ _ hne2, getLastD_cons_of_ne_nil _ _ _ hne2]
                rfl

/-- The trailing field of a split contains no separator: splitting it again
returns it whole. This is why keeping it as the buffer is sound. -/
theorem splitLinesRN_lastField : ∀ (s : List Char),
    splitLinesRN ((splitLinesRN s).getLastD [])
      = [(splitLinesRN s).getLastD []] := by
  intro s
  induction s using splitLinesRN.induct with
  | case1 => simp [splitLinesRN, List.getLastD]
  | case2 rest ih =>
    rw [splitLinesRN_cons_crnl,
      getLastD_cons_of_ne_nil _ _ _ (splitLinesRN_ne_nil rest)]
    exact ih
  | case3 rest ih =>
    rw [splitLinesRN_cons_nl,
      getLastD_cons_of_ne_nil _ _ _ (splitLinesRN_ne_nil rest)]
    exact ih
  | case4 c rest h1 h2 ih =>
    have hother : splitLinesRN (c :: rest) = consFirst c (splitLinesRN rest) :=
      splitLinesRN_cons_other c rest (fun hh => h2 hh) (fun r hc hr => h1 r hc hr)
    rw [hother]
    cases hsr : splitLinesRN rest with
    | nil => exact absurd hsr (splitLinesRN_ne_nil rest)
    | cons f ls =>
      cases ls with
      | nil =>
        have hf : rest = f := splitLinesRN_singleton rest f hsr
        have hcf : splitLinesRN (c :: f) = consFirst c (splitLinesRN f) := by
          refine splitLinesRN_cons_other c f (fun hh => h2 hh) ?_
          intro r hc hr
          exact h1 r hc (by rw [hf, hr])
        show splitLinesRN ((consFirst c [f]).getLastD []) = [(consFirst c [f]).getLastD []]
        have hgl : (consFirst c [f]).getLastD [] = c :: f := rfl
        rw [hgl, hcf, show splitLinesRN f = [f] from hf ▸ hsr]
        rfl
      | cons x ls' =>
        have hne2 : (x :: ls' : List (List Char)) ≠ [] := by simp
        simp only [consFirst]
        rw [getLastD_cons_of_ne_nil _ _ _ hne2]
        rw [hsr, getLastD_cons_of_ne_nil _ _ _ hne2] at ih
        exact ih

/-- One run of the chunk fold, starting from a separator-free buffer,
delivers the accumulated lines plus every non-empty field of the full
concatenation except its trailing one, and the flush adds that trailing
field when non-empty. -/
theorem streamFold_eq : ∀ (chunks : List (List Char)) (buf : List Char)
    (em : List (List Char)), splitLinesRN buf = [buf] →
    flushStream (chunks.foldl feedChunk ⟨buf, em⟩)
      = em ++ (splitLinesRN (buf ++ chunks.flatten)).filter (fun l => !l.isEmpty) := by
  intro chunks
  induction chunks with
  | nil =>
    intro buf em hbuf
    show flushStream ⟨buf, em⟩ = em ++ (splitLinesRN (buf ++ [].flatten)).filter _
    rw [show ([] : List (List Char)).flatten = [] from rfl, List.append_nil, hbuf]
    cases buf with
    | nil => simp [flushStream]
    | cons c cs => simp [flushStream]
  | cons ch rest ih =>
    intro buf em hbuf
    rw [List.foldl_cons]
    have hfeed : feedChunk ⟨buf, em⟩ ch
        = ⟨(splitLinesRN (buf ++ ch)).getLastD [],
           em ++ ((splitLinesRN (buf ++ ch)).dropLast.filter (fun l => !l.isEmpty))⟩ := rfl
    rw [hfeed, ih _ _ (splitLinesRN_lastField (buf ++ ch))]
    rw [List.append_assoc]
    congr 1
    rw [show (ch :: rest).flatten = ch ++ rest.flatten from rfl, ← List.append_assoc]
    rw [splitLinesRN_append (buf ++ ch) rest.flatten, List.filter_append]

/-- C9 (amended): across any chunking of the two streams' data, the adapter
delivers exactly the non-empty lines of the full output, in receipt order,
with the trailing partial line flushed at exit; empty lines are complete
lines too but are skipped by the callback's truthiness guard, so they are
never delivered. -/
theorem stream_delivers_nonempty_lines (chunks : List (List Char)) :
    streamLines chunks
      = (splitLinesRN chunks.flatten).filter (fun l => !l.isEmpty) := by
  have h := streamFold_eq chunks [] [] rfl
  simpa [streamLines] using h

/-- Counterexample to C9 as stated: the chunk `a\n\nb\n` has complete lines
`a`, `` and `b`, but the callback fires only for `a` and `b` — the empty
line is dropped by the `if (line && ...)` guard. -/
theorem stream_empty_line_counterexample :
    streamLines ["a\n\nb\n".data] = [['a'], ['b']]
    ∧ (splitLinesRN "a\n\nb\n".data).dropLast = [['a'], [], ['b']]
    ∧ ([['a'], ['b']] : List (List Char)) ≠ [['a'], [], ['b']] :=
  ⟨by decide, by decide, by decide⟩

/-- The first filtered element is the first satisfying element. -/
theorem filter_head_eq_find {α : Type} (p : α → Bool) (l : List α) :
    (l.filter p).head? = l.find? p := by
  induction l with
  | nil => rfl
  | cons a as ih =>
    by_cases h : p a
    · simp [List.filter_cons, List.find?_cons, h]
    · simp [List.filter_cons, List.find?_cons, h, ih]

/-- C10: `findTrxFile` returns `undefined` when the results directory does
not exist or no listed file both starts with the prefix and ends with
`.trx`; otherwise it joins the directory with the first matching filename in
directory-listing order. -/
theorem findTrxFile_spec :
    (∀ (files : List String) (dir pfx : String), findTrxFile false files dir pfx = none)
    ∧ (∀ (files : List String) (dir pfx : String),
        (∀ f ∈ files, isMatchingTrxFile pfx f = false) →
        findTrxFile true files dir pfx = none)
    ∧ (∀ (files : List String) (dir pfx f : String),
        files.find? (isMatchingTrxFile pfx) = some f →
        findTrxFile true files dir pfx = some (dir ++ "/" ++ f)) := by
  refine ⟨?_, ?_, ?_⟩
  · intro files dir pfx
    rfl
  · intro files dir pfx h
    have hfil : files.filter (isMatchingTrxFile pfx) = [] := by
      rw [List.filter_eq_nil_iff]
      intro f hf
      simp [h f hf]
    simp [findTrxFile, hfil]
  · intro files dir pfx f h
    have hh := filter_head_eq_find (isMatchingTrxFile pfx) files
    rw [h] at hh
    cases hfil : files.filter (isMatchingTrxFile pfx) with
    | nil =>
      rw [hfil] at hh
      cases hh
    | cons g gs =>
      rw [hfil] at hh
      injection hh with hg
      simp [findTrxFile, hfil, hg]

/-- Closed instance of C10: two matching files, the first in listing order
wins. -/
theorem findTrxFile_spec_witness :
    findTrxFile true ["other.txt", "test-run-1_a.trx", "test-run-1_b.trx"]
        "/tmp/results" "test-run-1"
      = some "/tmp/results/test-run-1_a.trx" :=
  findTrxFile_spec.2.2 ["other.txt", "test-run-1_a.trx", "test-run-1_b.trx"]
    "/tmp/results" "test-run-1" "test-run-1_a.trx" (by decide)

end TestExplorer
